import Mathlib

/-!
Verification of the lochash n-dimensional spatial hash library.

This file gives a shallow embedding of the library's core algorithms
(quantization, bucket map, add/remove/move/query operations, range and
distance enumerators, bounding-box and radius query helpers) translated
from the C++ headers under include/lochash, and proves properties of the
embedded definitions.

Modelling conventions:
* A coordinate value (float, double or an integral type in C++) is
  modelled as a rational number.  The conversion performed by
  static_cast to the 64-bit quantized integer type truncates toward
  zero; it is modelled by truncated division of numerator by
  denominator.
* Machine integers are modelled as Nat/Int with explicit reduction
  modulo 2 ^ 64 where the C++ code relies on two's-complement
  conversion between size_t and the signed quantized integer type.
* Exact rational arithmetic on coordinates is performed through the
  executable helpers qadd/qsub/qmul/qabs below, which are proved equal
  to the field operations of ℚ (the library's floating point arithmetic
  is modelled exactly; rounding of float arithmetic is out of scope).
* The floating-point remove tolerance (absolute machine epsilon) is
  modelled by an explicit nonnegative parameter eps; instantiating
  eps = 0 gives the exact comparison used for integral coordinate
  types.
* std::unordered_map is modelled as an association list with unique
  keys; all operations below touch it exactly where the C++ code does.
-/

namespace lochash

/-- Executable addition on ℚ (equal to + by qadd_eq). -/
def qadd (a b : ℚ) : ℚ := mkRat (a.num * b.den + b.num * a.den) (a.den * b.den)

/-- Executable subtraction on ℚ (equal to - by qsub_eq). -/
def qsub (a b : ℚ) : ℚ := mkRat (a.num * b.den - b.num * a.den) (a.den * b.den)

/-- Executable multiplication on ℚ (equal to * by qmul_eq). -/
def qmul (a b : ℚ) : ℚ := mkRat (a.num * b.num) (a.den * b.den)

/-- Executable absolute value on ℚ (equal to |.| by qabs_eq). -/
def qabs (a : ℚ) : ℚ := mkRat |a.num| a.den

/-- Truncating conversion of a coordinate value to a signed integer.
Models the static_cast used by quantize_value in
location_hash_algorithm.hpp: conversion of a floating point value to an
integer type rounds toward zero, and integral values are unchanged. -/
def truncQ (q : ℚ) : ℤ := q.num.tdiv q.den

/-- The unsigned 64-bit (size_t) view of a signed integer value,
i.e. reduction modulo 2 ^ 64. -/
def toUInt64Z (i : ℤ) : ℕ := (i % ((2 ^ 64 : ℕ) : ℤ)).toNat

/-- Reinterpret an unsigned 64-bit value as a signed two's-complement
64-bit integer (the ssize_t / int64_t result type of quantize_value). -/
def ofUInt64Z (n : ℕ) : ℤ := if n < 2 ^ 63 then (n : ℤ) else (n : ℤ) - ((2 ^ 64 : ℕ) : ℤ)

/-- Signed 64-bit wrap-around of an integer value (two's-complement
overflow behaviour of int64_t arithmetic). -/
def wrap64 (i : ℤ) : ℤ := ofUInt64Z (toUInt64Z i)

/-- The 64-bit mask ~(Precision - 1): bitwise complement of
Precision - 1 inside a 64-bit word. -/
def mask64 (P : ℕ) : ℕ := (2 ^ 64 - 1) - (P - 1)

/-- quantize_value from location_hash_algorithm.hpp: converts the value
to the 64-bit integer representation and clears the low log2(Precision)
bits with bitwise AND against the two's-complement mask ~(Precision-1).
The C++ computes static_cast<size_t>(value) & ~(Precision - 1) and
returns it as a signed 64-bit quantity. -/
def quantize_value (P : ℕ) (v : ℚ) : ℤ :=
  ofUInt64Z (Nat.land (toUInt64Z (truncQ v)) (mask64 P))

/-- A point: the array of per-dimension coordinate values. -/
abbrev Point := List ℚ

/-- A composite bucket key: the array of per-dimension quantized
coordinates (QuantizedCoordinate::quantized_). -/
abbrev QKey := List ℤ

/-- The QuantizedCoordinate constructor from
location_hash_quantized_coordinate.hpp: quantize every dimension. -/
def quantize_coordinates (P : ℕ) (coords : Point) : QKey :=
  coords.map (quantize_value P)

/-- The loop body of calculate_precision_shift, written with explicit
fuel (the loop halves its argument, so fuel = starting value suffices):
counts how many halvings bring the value to 1. -/
def shiftLoop : ℕ → ℕ → ℕ
  | 0, _ => 0
  | fuel + 1, v => if 1 < v then shiftLoop fuel (v / 2) + 1 else 0

/-- calculate_precision_shift from location_hash_algorithm.hpp:
the number of bits to shift for quantization, log2 of the precision. -/
def calculate_precision_shift (P : ℕ) : ℕ := shiftLoop P P

/-- Per-dimension step count of the range enumerator:
((quantize(max) - quantize(min)) >> precision_shift) + 1, computed in
the signed 64-bit type and stored into a size_t.  The arithmetic right
shift of the signed 64-bit difference is floor division by 2^shift. -/
def stepCount (shift : ℕ) (qmax qmin : ℤ) : ℕ :=
  toUInt64Z (wrap64 (qmax - qmin) / ((2 ^ shift : ℕ) : ℤ) + 1)

/-- The odometer loop of generate_all_quantized_coordinates_within_range:
emits every tuple of per-dimension indices with dimension 0 varying
fastest.  The C++ do-while loop always emits the all-zero tuple first
and treats a dimension with step count 0 exactly like step count 1,
hence the max with 1. -/
def odometer : List ℕ → List (List ℕ)
  | [] => [[]]
  | s :: rest =>
    (odometer rest).flatMap fun tl => (List.range (max s 1)).map fun i => i :: tl

/-- generate_all_quantized_coordinates_within_range from
location_hash_quantized_coordinate.hpp: computes per-dimension step
counts, then for every index tuple forms
min_coords[i] + (indices[i] << precision_shift) (a size_t shift,
converted back to the coordinate type) and quantizes that point into a
bucket key. -/
def generate_all_quantized_coordinates_within_range (P : ℕ) (minC maxC : Point) : List QKey :=
  let shift := calculate_precision_shift P
  let steps := List.zipWith
    (fun mx mn => stepCount shift (quantize_value P mx) (quantize_value P mn)) maxC minC
  (odometer steps).map fun idx =>
    quantize_coordinates P
      (List.zipWith (fun mn i => qadd mn (((i <<< shift) % 2 ^ 64 : ℕ) : ℚ)) minC idx)

/-- generate_all_quantized_coordinates_within_distance: circumscribes
the radius with the per-dimension box [center - radius, center + radius]
and delegates to the range enumerator. -/
def generate_all_quantized_coordinates_within_distance (P : ℕ) (center : Point) (radius : ℚ) :
    List QKey :=
  generate_all_quantized_coordinates_within_range P
    (center.map fun c => qsub c radius) (center.map fun c => qadd c radius)

/-- One stored entry: the original unquantized coordinates paired with
the object pointer (none models nullptr, stored by the no-payload
add overload). -/
abbrev Entry (α : Type) := Point × Option α

/-- BucketContent: the vector of entries of one bucket. -/
abbrev Bucket (α : Type) := List (Entry α)

/-- The bucket map data_ of LocationHash: an associative container from
composite quantized keys to buckets.  Modelled as an association list
with unique keys. -/
abbrev BucketMap (α : Type) := List (QKey × Bucket α)

/-- Lookup in the bucket map (unordered_map::find). -/
def mapFind {α : Type} : BucketMap α → QKey → Option (Bucket α)
  | [], _ => none
  | (k, b) :: rest, key => if k = key then some b else mapFind rest key

/-- data_[key].emplace_back(entry): appends the entry to the bucket of
the key, creating the bucket first when the key is absent. -/
def mapAppend {α : Type} : BucketMap α → QKey → Entry α → BucketMap α
  | [], key, e => [(key, [e])]
  | (k, b) :: rest, key, e =>
    if k = key then (k, b ++ [e]) :: rest else (k, b) :: mapAppend rest key e

/-- data_.erase(it): removes the binding of the key. -/
def mapErase {α : Type} : BucketMap α → QKey → BucketMap α
  | [], _ => []
  | (k, b) :: rest, key => if k = key then rest else (k, b) :: mapErase rest key

/-- In-place replacement of the bucket stored under an existing key. -/
def mapUpdate {α : Type} : BucketMap α → QKey → Bucket α → BucketMap α
  | [], _, _ => []
  | (k, b) :: rest, key, b2 =>
    if k = key then (k, b2) :: rest else (k, b) :: mapUpdate rest key b2

/-- coordinates_match from location_hash.hpp: per-dimension comparison,
|a - b| <= epsilon for floating point coordinates (eps is the machine
epsilon of the scalar type); instantiating eps = 0 gives the exact
equality used for integral coordinate types. -/
def coordinates_match (eps : ℚ) : Point → Point → Bool
  | a :: as, b :: bs => (decide (qabs (qsub a b) ≤ eps)) && coordinates_match eps as bs
  | _, _ => true

/-- buckets_match from location_hash.hpp: the two points produce equal
QuantizedCoordinate keys. -/
def buckets_match (P : ℕ) (c1 c2 : Point) : Bool :=
  decide (quantize_coordinates P c1 = quantize_coordinates P c2)

/-- LocationHash::add (both the object and the no-payload overload,
distinguished by the optional object): appends (coordinates, object) to
the bucket of the quantized key. -/
def add {α : Type} (P : ℕ) (m : BucketMap α) (object : Option α) (coords : Point) :
    BucketMap α :=
  mapAppend m (quantize_coordinates P coords) (coords, object)

/-- LocationHash::add with radius: appends the same entry into every
bucket overlapped by the circumscribing box and returns the list of
keys touched. -/
def add_radius {α : Type} (P : ℕ) (m : BucketMap α) (object : α) (coords : Point)
    (radius : ℚ) : BucketMap α × List QKey :=
  let keys := generate_all_quantized_coordinates_within_distance P coords radius
  (keys.foldl (fun acc k => mapAppend acc k (coords, some object)) m, keys)

/-- LocationHash::query: the full bucket of the point's quantized key,
or the empty bucket when absent. -/
def query {α : Type} (P : ℕ) (m : BucketMap α) (coords : Point) : Bucket α :=
  (mapFind m (quantize_coordinates P coords)).getD []

/-- Removes the first entry of a bucket satisfying the predicate,
returning whether one was removed and the remaining bucket. -/
def removeFirstWith {α : Type} (p : Entry α → Bool) : Bucket α → Bool × Bucket α
  | [] => (false, [])
  | e :: rest =>
    if p e then (true, rest)
    else
      let r := removeFirstWith p rest
      (r.1, e :: r.2)

/-- LocationHash::remove (no-payload overload): finds the bucket of the
point, erases the first entry whose stored coordinates match the point
under coordinates_match, erases the bucket when it becomes empty, and
reports whether an entry was removed. -/
def remove {α : Type} (eps : ℚ) (P : ℕ) (m : BucketMap α) (coords : Point) :
    Bool × BucketMap α :=
  let key := quantize_coordinates P coords
  match mapFind m key with
  | none => (false, m)
  | some bucket =>
    let r := removeFirstWith (fun e => coordinates_match eps e.1 coords) bucket
    if r.1 then (true, if r.2.isEmpty then mapErase m key else mapUpdate m key r.2)
    else (false, m)

/-- LocationHash::remove (object overload): same bucket selection, but
the erased entry is the first one whose object pointer equals the given
object. -/
def remove_object {α : Type} [DecidableEq α] (P : ℕ) (m : BucketMap α) (object : α)
    (coords : Point) : Bool × BucketMap α :=
  let key := quantize_coordinates P coords
  match mapFind m key with
  | none => (false, m)
  | some bucket =>
    let r := removeFirstWith (fun e => decide (e.2 = some object)) bucket
    if r.1 then (true, if r.2.isEmpty then mapErase m key else mapUpdate m key r.2)
    else (false, m)

/-- The loop of the radius overload of LocationHash::remove: walks the
overlapped keys in order; in each found bucket erases the first entry
whose object matches, then erases the bucket if it is (or became)
empty. -/
def remove_radius_go {α : Type} [DecidableEq α] (object : α) :
    List QKey → BucketMap α → Bool → Bool × BucketMap α
  | [], m, acc => (acc, m)
  | k :: ks, m, acc =>
    match mapFind m k with
    | none => remove_radius_go object ks m acc
    | some bucket =>
      let r := removeFirstWith (fun e => decide (e.2 = some object)) bucket
      let m2 := if r.2.isEmpty then mapErase m k else mapUpdate m k r.2
      remove_radius_go object ks m2 (acc || r.1)

/-- LocationHash::remove (radius overload): recomputes the overlapped
keys and removes the object from every one of them, pruning emptied
buckets; reports whether at least one removal occurred. -/
def remove_radius {α : Type} [DecidableEq α] (P : ℕ) (m : BucketMap α) (object : α)
    (coords : Point) (radius : ℚ) : Bool × BucketMap α :=
  remove_radius_go object
    (generate_all_quantized_coordinates_within_distance P coords radius) m false

/-- LocationHash::move (no-payload overload): returns false without
touching the map when the two points fall in the same bucket; otherwise
remove(old) then, only on success, add(new). -/
def move {α : Type} (eps : ℚ) (P : ℕ) (m : BucketMap α)
    (old_coordinates new_coordinates : Point) : Bool × BucketMap α :=
  if buckets_match P old_coordinates new_coordinates then (false, m)
  else
    let r := remove eps P m old_coordinates
    if r.1 then (true, add P r.2 none new_coordinates) else (false, r.2)

/-- LocationHash::move (object overload). -/
def move_object {α : Type} [DecidableEq α] (P : ℕ) (m : BucketMap α) (object : α)
    (old_coordinates new_coordinates : Point) : Bool × BucketMap α :=
  if buckets_match P old_coordinates new_coordinates then (false, m)
  else
    let r := remove_object P m object old_coordinates
    if r.1 then (true, add P r.2 (some object) new_coordinates) else (false, r.2)

/-- LocationHash::move (radius overload): early out returning the
enumerated key set of the old position when old and new coordinates
match under coordinates_match; otherwise remove with radius followed by
add with radius, returning the keys of the add. -/
def move_radius {α : Type} [DecidableEq α] (eps : ℚ) (P : ℕ) (m : BucketMap α) (object : α)
    (radius : ℚ) (old_coordinates new_coordinates : Point) : BucketMap α × List QKey :=
  if coordinates_match eps old_coordinates new_coordinates then
    (m, generate_all_quantized_coordinates_within_distance P old_coordinates radius)
  else
    let m2 := (remove_radius P m object old_coordinates radius).2
    add_radius P m2 object new_coordinates radius

/-- LocationHash::clear. -/
def clear {α : Type} (_ : BucketMap α) : BucketMap α := []

/-- detail::within_bounds from the bounding-box query helper header:
elementwise lower_bound <= coordinate <= upper_bound, inclusive on both
ends. -/
def within_bounds : Point → Point → Point → Bool
  | c :: cs, lo :: los, hi :: his =>
    (decide (lo ≤ c) && decide (c ≤ hi)) && within_bounds cs los his
  | _, _, _ => true

/-- query_bounding_box: enumerates the keys of the box, probes the
bucket map once per key, and collects the object of every candidate
entry whose exact coordinates pass within_bounds. -/
def query_bounding_box {α : Type} (P : ℕ) (m : BucketMap α)
    (lower_bounds upper_bounds : Point) : List (Option α) :=
  (generate_all_quantized_coordinates_within_range P lower_bounds upper_bounds).flatMap
    fun k =>
      match mapFind m k with
      | none => []
      | some bucket =>
        bucket.filterMap fun e =>
          if within_bounds e.1 lower_bounds upper_bounds then some e.2 else none

/-- detail::squared_difference. -/
def squared_difference (a b : ℚ) : ℚ := qmul (qsub a b) (qsub a b)

/-- detail::calculate_distance_squared: sum of per-dimension squared
differences. -/
def calculate_distance_squared : Point → Point → ℚ
  | a :: as, b :: bs => qadd (squared_difference a b) (calculate_distance_squared as bs)
  | _, _ => 0

/-- query_within_distance: enumerates the keys of the circumscribing
box of the radius, probes the bucket map once per key, and collects the
object of every candidate entry whose exact squared Euclidean distance
to the center is <= radius * radius (no epsilon tolerance). -/
def query_within_distance {α : Type} (P : ℕ) (m : BucketMap α) (center : Point)
    (radius : ℚ) : List (Option α) :=
  let radius_squared := qmul radius radius
  (generate_all_quantized_coordinates_within_distance P center radius).flatMap
    fun k =>
      match mapFind m k with
      | none => []
      | some bucket =>
        bucket.filterMap fun e =>
          if calculate_distance_squared e.1 center ≤ radius_squared then some e.2 else none

/-- The index of the README scenario: precision 16, payloads A = 1 at
(24.4, 20.0), B = 2 at (30.2, 18.1), C = 3 at (50.0, 40.0). -/
def readmeExampleMap : BucketMap ℕ :=
  add 16
    (add 16 (add 16 [] (some 1) [mkRat 244 10, 20]) (some 2) [mkRat 302 10, mkRat 181 10])
    (some 3) [50, 40]

/-- The no-empty-buckets invariant: every bucket present in the map
holds at least one entry. -/
def NoEmptyBuckets {α : Type} (m : BucketMap α) : Prop := ∀ kb ∈ m, kb.2 ≠ ([] : Bucket α)

/-- The states of the index reachable from the empty index by any
sequence of add, add-with-radius, remove (both overloads),
remove-with-radius, move (all overloads) and clear operations. -/
inductive Reachable {α : Type} [DecidableEq α] (eps : ℚ) (P : ℕ) : BucketMap α → Prop
  | empty : Reachable eps P []
  | add_step (m : BucketMap α) (object : Option α) (coords : Point) :
      Reachable eps P m → Reachable eps P (add P m object coords)
  | add_radius_step (m : BucketMap α) (object : α) (coords : Point) (radius : ℚ) :
      Reachable eps P m → Reachable eps P (add_radius P m object coords radius).1
  | remove_step (m : BucketMap α) (coords : Point) :
      Reachable eps P m → Reachable eps P (remove eps P m coords).2
  | remove_object_step (m : BucketMap α) (object : α) (coords : Point) :
      Reachable eps P m → Reachable eps P (remove_object P m object coords).2
  | remove_radius_step (m : BucketMap α) (object : α) (coords : Point) (radius : ℚ) :
      Reachable eps P m → Reachable eps P (remove_radius P m object coords radius).2
  | move_step (m : BucketMap α) (old_coordinates new_coordinates : Point) :
      Reachable eps P m → Reachable eps P (move eps P m old_coordinates new_coordinates).2
  | move_object_step (m : BucketMap α) (object : α) (old_coordinates new_coordinates : Point) :
      Reachable eps P m →
        Reachable eps P (move_object P m object old_coordinates new_coordinates).2
  | move_radius_step (m : BucketMap α) (object : α) (radius : ℚ)
      (old_coordinates new_coordinates : Point) :
      Reachable eps P m →
        Reachable eps P (move_radius eps P m object radius old_coordinates new_coordinates).1
  | clear_step (m : BucketMap α) : Reachable eps P m → Reachable eps P (clear m)

/-! ### Arithmetic lemmas about the quantizer -/

theorem qadd_eq (a b : ℚ) : qadd a b = a + b := by
  unfold qadd
  rw [Rat.mkRat_eq_div]
  push_cast
  conv_rhs => rw [← Rat.num_div_den a, ← Rat.num_div_den b]
  rw [div_add_div _ _ (Nat.cast_ne_zero.mpr a.den_nz) (Nat.cast_ne_zero.mpr b.den_nz)]
  ring_nf

theorem qsub_eq (a b : ℚ) : qsub a b = a - b := by
  unfold qsub
  rw [Rat.mkRat_eq_div]
  push_cast
  conv_rhs => rw [← Rat.num_div_den a, ← Rat.num_div_den b]
  rw [div_sub_div _ _ (Nat.cast_ne_zero.mpr a.den_nz) (Nat.cast_ne_zero.mpr b.den_nz)]
  ring_nf

theorem qmul_eq (a b : ℚ) : qmul a b = a * b := by
  unfold qmul
  rw [Rat.mkRat_eq_div]
  push_cast
  conv_rhs => rw [← Rat.num_div_den a, ← Rat.num_div_den b]
  rw [div_mul_div_comm]

theorem qabs_eq (a : ℚ) : qabs a = |a| := by
  unfold qabs
  rw [Rat.mkRat_eq_div]
  push_cast
  conv_rhs => rw [← Rat.num_div_den a]
  rw [abs_div, Nat.abs_cast]

/-- Truncation agrees with ceiling on negative values and floor on
nonnegative ones (round toward zero). -/
theorem truncQ_eq (q : ℚ) : truncQ q = if q < 0 then ⌈q⌉ else ⌊q⌋ := by
  unfold truncQ
  by_cases h : q < 0
  · have hnum : q.num < 0 := Rat.num_neg.mpr h
    have h1 : q.num.tdiv q.den = -((-q.num).tdiv q.den) := by
      rw [Int.neg_tdiv, neg_neg]
    have hceil : ⌈q⌉ = -⌊-q⌋ := by
      rw [← Int.ceil_neg, neg_neg]
    rw [h1, Int.tdiv_eq_ediv (by omega) (by positivity), if_pos h, hceil, Rat.floor_def,
      Rat.neg_num, Rat.neg_den]
  · have hnum : 0 ≤ q.num := Rat.num_nonneg.mpr (not_lt.mp h)
    rw [Int.tdiv_eq_ediv hnum (by positivity), if_neg h, Rat.floor_def]

/-- Truncation toward zero is monotone. -/
theorem truncQ_mono {a b : ℚ} (hab : a ≤ b) : truncQ a ≤ truncQ b := by
  rw [truncQ_eq, truncQ_eq]
  by_cases ha : a < 0
  · by_cases hb : b < 0
    · simp only [if_pos ha, if_pos hb]
      exact Int.ceil_mono hab
    · simp only [if_pos ha, if_neg hb]
      have h1 : ⌈a⌉ ≤ 0 := Int.ceil_le.mpr (by push_cast; linarith)
      have h2 : (0:ℤ) ≤ ⌊b⌋ := Int.floor_nonneg.mpr (not_lt.mp hb)
      omega
  · have hb : ¬ b < 0 := by linarith [not_lt.mp ha]
    simp only [if_neg ha, if_neg hb]
    exact Int.floor_mono hab

/-- Truncation is the identity on integer values. -/
theorem truncQ_intCast (n : ℤ) : truncQ (n : ℚ) = n := by
  rw [truncQ_eq]
  by_cases h : (n : ℚ) < 0
  · rw [if_pos h, Int.ceil_intCast]
  · rw [if_neg h, Int.floor_intCast]

/-- Bitwise AND with the complement mask of the low s bits clears the
remainder modulo 2 ^ s, for values inside the 64-bit range. -/
theorem land_mask (s u : ℕ) (hs : s ≤ 64) (hu : u < 2 ^ 64) :
    Nat.land u ((2 ^ 64 - 1) - (2 ^ s - 1)) = u - u % 2 ^ s := by
  show u &&& ((2 ^ 64 - 1) - (2 ^ s - 1)) = u - u % 2 ^ s
  have hpow : (2:ℕ) ^ s ≤ 2 ^ 64 := Nat.pow_le_pow_right (by norm_num) hs
  have hmul : (2:ℕ) ^ (64 - s) * 2 ^ s = 2 ^ 64 := by
    rw [← pow_add]
    congr 1
    omega
  have hmask : (2:ℕ) ^ 64 - 1 - (2 ^ s - 1) = (2 ^ (64 - s) - 1) <<< s := by
    rw [Nat.shiftLeft_eq, Nat.sub_mul, one_mul, hmul]
    have h1 : (1:ℕ) ≤ 2 ^ s := Nat.one_le_two_pow
    omega
  have hself : u - u % 2 ^ s = (u >>> s) <<< s := by
    rw [Nat.shiftRight_eq_div_pow, Nat.shiftLeft_eq]
    have h2 := Nat.div_add_mod u (2 ^ s)
    rw [Nat.mul_comm] at h2
    omega
  rw [hmask, hself]
  apply Nat.eq_of_testBit_eq
  intro i
  rw [Nat.testBit_and, Nat.testBit_shiftLeft, Nat.testBit_shiftLeft, Nat.testBit_shiftRight,
    Nat.testBit_two_pow_sub_one]
  by_cases hsi : s ≤ i
  · have hadd : s + (i - s) = i := by omega
    rw [hadd]
    by_cases hi64 : i < 64
    · simp [hsi, show i - s < 64 - s by omega]
    · have hbit : u.testBit i = false :=
        Nat.testBit_lt_two_pow (lt_of_lt_of_le hu (Nat.pow_le_pow_right (by norm_num) (by omega)))
      simp [hsi, hbit]
  · simp [hsi]

/-- Closed form of quantize_value for truncated values inside the
signed 64-bit range: it is precision times the floor division of the
truncated value by the precision, i.e. rounding onto multiples of the
precision toward negative infinity. -/
theorem quantize_value_eq (s : ℕ) (hs : s ≤ 63) (v : ℚ)
    (h1 : -(2 ^ 63) ≤ truncQ v) (h2 : truncQ v < 2 ^ 63) :
    quantize_value (2 ^ s) v = 2 ^ s * (truncQ v / 2 ^ s) := by
  unfold quantize_value mask64 toUInt64Z ofUInt64Z
  set t := truncQ v with ht
  have hc : ((2 ^ s : ℕ) : ℤ) = (2:ℤ) ^ s := by norm_cast
  have hcpos : (0:ℤ) < (2:ℤ) ^ s := by positivity
  have heq := Int.ediv_add_emod t ((2:ℤ) ^ s)
  have hmodnn : 0 ≤ t % (2:ℤ) ^ s := Int.emod_nonneg t (by positivity)
  have hmodltI : t % (2:ℤ) ^ s < (2:ℤ) ^ s := Int.emod_lt_of_pos t hcpos
  by_cases hneg : 0 ≤ t
  · have hmod : t % ((2 ^ 64 : ℕ) : ℤ) = t := Int.emod_eq_of_lt hneg (by push_cast; omega)
    rw [hmod]
    have htn : (t.toNat : ℤ) = t := Int.toNat_of_nonneg hneg
    have hlt : t.toNat < 2 ^ 64 := by omega
    rw [land_mask s t.toNat (by omega) hlt]
    rw [if_pos (by omega : t.toNat - t.toNat % 2 ^ s < 2 ^ 63)]
    have hmodcast : ((t.toNat % 2 ^ s : ℕ) : ℤ) = t % (2:ℤ) ^ s := by
      push_cast
      rw [htn]
    have hsub : t.toNat % 2 ^ s ≤ t.toNat := Nat.mod_le _ _
    omega
  · push_neg at hneg
    have hmod : t % ((2 ^ 64 : ℕ) : ℤ) = t + 2 ^ 64 := by
      have hlit : ((2 ^ 64 : ℕ) : ℤ) = (18446744073709551616 : ℤ) := by norm_num
      rw [hlit]
      have h63 : ((2:ℤ) ^ 63) = (9223372036854775808 : ℤ) := by norm_num
      rw [h63] at h1
      omega
    rw [hmod]
    have hunn : (0:ℤ) ≤ t + 2 ^ 64 := by
      have h63 : ((2:ℤ) ^ 63) = (9223372036854775808 : ℤ) := by norm_num
      rw [h63] at h1
      norm_num
      omega
    have htn : (((t + 2 ^ 64).toNat : ℤ)) = t + 2 ^ 64 := Int.toNat_of_nonneg hunn
    set u := (t + 2 ^ 64).toNat with hu
    have hult : u < 2 ^ 64 := by
      have : ((2:ℤ) ^ 64) = ((2 ^ 64 : ℕ) : ℤ) := by norm_cast
      omega
    have hu63 : 2 ^ 63 ≤ u := by
      have h63 : ((2:ℤ) ^ 63) = ((2 ^ 63 : ℕ) : ℤ) := by norm_cast
      have h64 : ((2:ℤ) ^ 64) = ((2 ^ 64 : ℕ) : ℤ) := by norm_cast
      omega
    rw [land_mask s u (by omega) hult]
    have hmodlt : u % 2 ^ s < 2 ^ s := Nat.mod_lt _ (by positivity)
    have hdvd : (2 ^ s : ℕ) ∣ 2 ^ 63 := pow_dvd_pow 2 hs
    have hdvd2 : (2 ^ s : ℕ) ∣ (u - u % 2 ^ s) := by
      have hdm := Nat.div_add_mod u (2 ^ s)
      exact ⟨u / 2 ^ s, by omega⟩
    have hge : 2 ^ 63 ≤ u - u % 2 ^ s := by
      by_contra hcon
      push_neg at hcon
      have hd : (2 ^ s : ℕ) ∣ (2 ^ 63 - (u - u % 2 ^ s)) := Nat.dvd_sub' hdvd hdvd2
      have hpos : 0 < 2 ^ 63 - (u - u % 2 ^ s) := by omega
      have hle := Nat.le_of_dvd hpos hd
      omega
    rw [if_neg (by omega)]
    have hmodcast : ((u % 2 ^ s : ℕ) : ℤ) = t % (2:ℤ) ^ s := by
      have hpowsplit : ((2:ℤ) ^ 64) = (2:ℤ) ^ s * 2 ^ (64 - s) := by
        rw [← pow_add]
        congr 1
        omega
      have hstep : (t + (2:ℤ) ^ 64) % (2:ℤ) ^ s = t % (2:ℤ) ^ s := by
        rw [hpowsplit]
        exact Int.add_mul_emod_self_left t ((2:ℤ) ^ s) ((2:ℤ) ^ (64 - s))
      push_cast
      rw [htn]
      exact hstep
    have hsub : u % 2 ^ s ≤ u := Nat.mod_le _ _
    have h64c : ((2 ^ 64 : ℕ) : ℤ) = (2:ℤ) ^ 64 := by norm_cast
    omega

/-- The quantized value lies within precision below the truncated
value. -/
theorem quantize_value_bounds (s : ℕ) (hs : s ≤ 63) (v : ℚ)
    (h1 : -(2 ^ 63) ≤ truncQ v) (h2 : truncQ v < 2 ^ 63) :
    truncQ v - 2 ^ s < quantize_value (2 ^ s) v ∧ quantize_value (2 ^ s) v ≤ truncQ v := by
  rw [quantize_value_eq s hs v h1 h2]
  have heq := Int.ediv_add_emod (truncQ v) ((2:ℤ) ^ s)
  have h3 : 0 ≤ truncQ v % (2:ℤ) ^ s := Int.emod_nonneg _ (by positivity)
  have h4 : truncQ v % (2:ℤ) ^ s < (2:ℤ) ^ s := Int.emod_lt_of_pos _ (by positivity)
  omega

/-- Monotonicity of the quantizer on the signed 64-bit range. -/
theorem quantize_mono_of_bounds (s : ℕ) (hs : s ≤ 63) (a b : ℚ)
    (ha : -(2 ^ 63) ≤ truncQ a) (hb : truncQ b < 2 ^ 63) (hab : a ≤ b) :
    quantize_value (2 ^ s) a ≤ quantize_value (2 ^ s) b := by
  have hm := truncQ_mono hab
  rw [quantize_value_eq s hs a ha (by omega), quantize_value_eq s hs b (by omega) hb]
  have hdiv := Int.ediv_le_ediv (c := (2:ℤ) ^ s) (by positivity) hm
  exact mul_le_mul_of_nonneg_left hdiv (by positivity)

/-- toUInt64Z is reduction modulo 2 ^ 64. -/
theorem toUInt64Z_cast (i : ℤ) : ((toUInt64Z i : ℕ) : ℤ) = i % (2:ℤ) ^ 64 := by
  unfold toUInt64Z
  have h64 : ((2 ^ 64 : ℕ) : ℤ) = (2:ℤ) ^ 64 := by norm_cast
  rw [h64, Int.toNat_of_nonneg (Int.emod_nonneg _ (by positivity))]

/-- Signed wrap-around is the identity on the signed 64-bit range. -/
theorem wrap64_eq_self (i : ℤ) (h1 : -(2 ^ 63) ≤ i) (h2 : i < 2 ^ 63) : wrap64 i = i := by
  unfold wrap64 ofUInt64Z
  have hc := toUInt64Z_cast i
  have h63 : ((2:ℤ) ^ 63) = (9223372036854775808 : ℤ) := by norm_num
  have h64 : ((2:ℤ) ^ 64) = (18446744073709551616 : ℤ) := by norm_num
  have h64n : ((2 ^ 64 : ℕ) : ℤ) = (2:ℤ) ^ 64 := by norm_cast
  have h63n : (2 ^ 63 : ℕ) = (9223372036854775808 : ℕ) := by norm_num
  by_cases hcase : toUInt64Z i < 2 ^ 63
  · rw [if_pos hcase]
    rw [h63, h64] at *
    rw [h63n] at hcase
    omega
  · rw [if_neg hcase]
    push_neg at hcase
    rw [h63, h64] at *
    rw [h63n] at hcase
    omega

end lochash

namespace lochash

/-! ### Helper lemmas about the index operations -/

/-- remove reports false only when it leaves the map untouched. -/
theorem remove_false_eq {α : Type} (eps : ℚ) (P : ℕ) (m : BucketMap α) (coords : Point)
    (h : (remove eps P m coords).1 = false) : (remove eps P m coords).2 = m := by
  cases hf : mapFind m (quantize_coordinates P coords) with
  | none => simp [remove, hf]
  | some bucket =>
    by_cases hr : (removeFirstWith (fun e => coordinates_match eps e.1 coords) bucket).1 = true
    · exfalso
      simp [remove, hf, hr] at h
    · simp only [Bool.not_eq_true] at hr
      simp [remove, hf, hr]

/-- remove_object reports false only when it leaves the map untouched. -/
theorem remove_object_false_eq {α : Type} [DecidableEq α] (P : ℕ) (m : BucketMap α)
    (object : α) (coords : Point) (h : (remove_object P m object coords).1 = false) :
    (remove_object P m object coords).2 = m := by
  cases hf : mapFind m (quantize_coordinates P coords) with
  | none => simp [remove_object, hf]
  | some bucket =>
    by_cases hr : (removeFirstWith (fun e => decide (e.2 = some object)) bucket).1 = true
    · exfalso
      simp [remove_object, hf, hr] at h
    · simp only [Bool.not_eq_true] at hr
      simp [remove_object, hf, hr]

/-- Reflexivity of the tolerance comparison for nonnegative epsilon. -/
theorem coordinates_match_refl (eps : ℚ) (heps : 0 ≤ eps) (p : Point) :
    coordinates_match eps p p = true := by
  induction p with
  | nil => rfl
  | cons a as ih =>
    unfold coordinates_match
    rw [ih, Bool.and_true]
    apply decide_eq_true
    rw [qabs_eq, qsub_eq]
    simp [heps]

/-! ### Claim theorems -/

/-- Claim C3: quantize_value rounds onto multiples of the precision
toward negative infinity through two's-complement masking: with
precision 8 the value -10 quantizes to -16 (not -8) and 10 quantizes
to 8; a coordinate exactly on a cell boundary lands in the upper cell:
with precision 16 the coordinate 16.0 quantizes to 16, not 0. -/
theorem quantize_value_boundary_examples :
    quantize_value 8 (-10) = -16 ∧ quantize_value 8 10 = 8 ∧
    quantize_value 16 16 = 16 ∧ quantize_value 16 16 ≠ 0 ∧ quantize_value 8 (-10) ≠ -8 := by
  decide

/-- Claim C8 (counterexample): quantize_value is not monotone on all
representable coordinate values: with precision 16, the value 2^63
(well inside the double range, converted to the unsigned 64-bit
representation) quantizes to -2^63, strictly below quantize_value of 0. -/
theorem quantize_value_not_monotone_at_two_pow_63 :
    (0:ℚ) ≤ (9223372036854775808 : ℚ) ∧
    ¬ (quantize_value 16 0 ≤ quantize_value 16 (9223372036854775808 : ℚ)) := by
  constructor
  · norm_num
  · decide

/-- Claim C8 (amended): quantize_value is monotone for all coordinate
values whose truncation lies in the signed 64-bit range [-2^63, 2^63):
if a <= b then quantize_value(a) <= quantize_value(b), for every
power-of-two precision 2^s with s <= 63. -/
theorem quantize_value_monotone_in_range (s : ℕ) (hs : s ≤ 63) (a b : ℚ)
    (ha : -(2 ^ 63) ≤ truncQ a) (hb : truncQ b < 2 ^ 63) (hab : a ≤ b) :
    quantize_value (2 ^ s) a ≤ quantize_value (2 ^ s) b :=
  quantize_mono_of_bounds s hs a b ha hb hab

/-- Witness for the amended C8 theorem at precision 16, a = 0, b = 24.4. -/
theorem quantize_value_monotone_witness :
    (0:ℕ) + 4 ≤ 63 ∧ -(2 ^ 63) ≤ truncQ 0 ∧ truncQ (mkRat 244 10) < 2 ^ 63 ∧
    quantize_value (2 ^ 4) 0 ≤ quantize_value (2 ^ 4) (mkRat 244 10) := by
  refine ⟨by norm_num, by decide, by decide, ?_⟩
  exact quantize_value_monotone_in_range 4 (by norm_num) 0 (mkRat 244 10) (by decide)
    (by decide) (by decide)

/-- Claim C9: when old and new coordinates quantize to the same bucket
key (in particular move(p, p)), both non-radius move overloads return
false and leave the bucket map completely unchanged: no entry is
duplicated or removed and the stored exact coordinates stay as they
were. -/
theorem move_same_bucket_noop {α : Type} [DecidableEq α] (eps : ℚ) (P : ℕ)
    (m : BucketMap α) (object : α) (old_coordinates new_coordinates : Point)
    (h : quantize_coordinates P old_coordinates = quantize_coordinates P new_coordinates) :
    move eps P m old_coordinates new_coordinates = (false, m) ∧
    move_object P m object old_coordinates new_coordinates = (false, m) := by
  have hb : buckets_match P old_coordinates new_coordinates = true := decide_eq_true h
  constructor
  · unfold move
    simp [hb]
  · unfold move_object
    simp [hb]

/-- Witness for C9: move([1,2], [1,2]) on a one-entry map. -/
theorem move_same_bucket_noop_witness :
    quantize_coordinates 16 [(1:ℚ), 2] = quantize_coordinates 16 [(1:ℚ), 2] ∧
    move 0 16 (add 16 ([] : BucketMap ℕ) (some 5) [1, 2]) [1, 2] [1, 2] =
      (false, add 16 ([] : BucketMap ℕ) (some 5) [1, 2]) ∧
    move_object 16 (add 16 ([] : BucketMap ℕ) (some 5) [1, 2]) 5 [1, 2] [1, 2] =
      (false, add 16 ([] : BucketMap ℕ) (some 5) [1, 2]) := by
  have h := move_same_bucket_noop (α := ℕ) 0 16
    (add 16 ([] : BucketMap ℕ) (some 5) [1, 2]) 5 [(1:ℚ), 2] [(1:ℚ), 2] rfl
  exact ⟨rfl, h.1, h.2⟩

/-- Claim C10: when old and new quantize to different bucket keys and
the inner remove finds nothing to remove, both non-radius move
overloads return false, never perform the add, and leave the index
completely unchanged. -/
theorem move_failed_remove_no_mutation {α : Type} [DecidableEq α] (eps : ℚ) (P : ℕ)
    (m : BucketMap α) (object : α) (old_coordinates new_coordinates : Point)
    (hq : quantize_coordinates P old_coordinates ≠ quantize_coordinates P new_coordinates) :
    ((remove eps P m old_coordinates).1 = false →
      move eps P m old_coordinates new_coordinates = (false, m)) ∧
    ((remove_object P m object old_coordinates).1 = false →
      move_object P m object old_coordinates new_coordinates = (false, m)) := by
  have hb : buckets_match P old_coordinates new_coordinates = false := by
    unfold buckets_match
    exact decide_eq_false hq
  constructor
  · intro h
    unfold move
    simp [hb, h, remove_false_eq eps P m old_coordinates h]
  · intro h
    unfold move_object
    simp [hb, h, remove_object_false_eq P m object old_coordinates h]

/-- Witness for C10: moving an absent point on the empty index. -/
theorem move_failed_remove_witness :
    quantize_coordinates 16 [(0:ℚ)] ≠ quantize_coordinates 16 [(16:ℚ)] ∧
    (remove 0 16 ([] : BucketMap ℕ) [(0:ℚ)]).1 = false ∧
    (remove_object 16 ([] : BucketMap ℕ) 3 [(0:ℚ)]).1 = false ∧
    move 0 16 ([] : BucketMap ℕ) [(0:ℚ)] [(16:ℚ)] = (false, []) ∧
    move_object 16 ([] : BucketMap ℕ) 3 [(0:ℚ)] [(16:ℚ)] = (false, []) := by
  have h := move_failed_remove_no_mutation (α := ℕ) 0 16 [] 3 [(0:ℚ)] [(16:ℚ)] (by decide)
  exact ⟨by decide, by decide, by decide, h.1 (by decide), h.2 (by decide)⟩

/-- Claim C2 (counterexample): the overlapped-key sets of the old and
new position can be set-equal (here both are the single key [16], with
precision 16, radius 4, old point 21, new point 22) while the radius
move still mutates the bucket map: the stored entry's coordinates are
rewritten from 21 to 22 by the remove/add pair, so the fast path is not
taken. -/
theorem move_radius_equal_keysets_mutates :
    generate_all_quantized_coordinates_within_distance 16 [(21:ℚ)] 4 =
      generate_all_quantized_coordinates_within_distance 16 [(22:ℚ)] 4 ∧
    (move_radius 0 16 (add_radius 16 ([] : BucketMap ℕ) 7 [(21:ℚ)] 4).1 7 4
        [(21:ℚ)] [(22:ℚ)]).1 ≠
      (add_radius 16 ([] : BucketMap ℕ) 7 [(21:ℚ)] 4).1 := by
  decide

/-- Claim C2 (amended): the fast path of the radius move is guarded by
coordinates_match, not by key-set equality: whenever the old and new
coordinates match elementwise within epsilon (exactly, for integral
coordinates), the radius move performs no mutation of the bucket map
and returns the key set enumerated for (old point, radius); when the
coordinates do not match it recomputes via remove and add with radius
even if the two key sets are set-equal. -/
theorem move_radius_fast_path_of_coordinates_match {α : Type} [DecidableEq α] (eps : ℚ)
    (P : ℕ) (m : BucketMap α) (object : α) (radius : ℚ)
    (old_coordinates new_coordinates : Point)
    (h : coordinates_match eps old_coordinates new_coordinates = true) :
    move_radius eps P m object radius old_coordinates new_coordinates =
      (m, generate_all_quantized_coordinates_within_distance P old_coordinates radius) := by
  unfold move_radius
  simp [h]

/-- Witness for the amended C2 theorem: a zero move at (21, 21). -/
theorem move_radius_fast_path_witness :
    coordinates_match 0 [(21:ℚ), 21] [(21:ℚ), 21] = true ∧
    move_radius 0 16 (add_radius 16 ([] : BucketMap ℕ) 7 [(21:ℚ), 21] 4).1 7 4
        [(21:ℚ), 21] [(21:ℚ), 21] =
      ((add_radius 16 ([] : BucketMap ℕ) 7 [(21:ℚ), 21] 4).1,
        generate_all_quantized_coordinates_within_distance 16 [(21:ℚ), 21] 4) := by
  exact ⟨by decide, move_radius_fast_path_of_coordinates_match 0 16 _ 7 4 _ _ (by decide)⟩

/-! ### Claim C4 -/

/-- Appending under an absent key pushes a fresh one-entry bucket. -/
theorem mapAppend_of_find_none {α : Type} (m : BucketMap α) (k : QKey) (e : Entry α)
    (h : mapFind m k = none) : mapAppend m k e = m ++ [(k, [e])] := by
  induction m with
  | nil => rfl
  | cons kb rest ih =>
    obtain ⟨k1, b1⟩ := kb
    by_cases hk : k1 = k
    · simp [mapFind, hk] at h
    · simp only [mapFind, if_neg hk] at h
      simp [mapAppend, hk, ih h]

/-- Finding the key of a freshly appended binding. -/
theorem mapFind_append_single_self {α : Type} (m : BucketMap α) (k : QKey) (b : Bucket α)
    (h : mapFind m k = none) : mapFind (m ++ [(k, b)]) k = some b := by
  induction m with
  | nil => simp [mapFind]
  | cons kb rest ih =>
    obtain ⟨k1, b1⟩ := kb
    by_cases hk : k1 = k
    · simp [mapFind, hk] at h
    · simp only [mapFind, if_neg hk] at h
      simp [List.cons_append, mapFind, hk, ih h]

/-- Erasing the key of a freshly appended binding restores the map. -/
theorem mapErase_append_single {α : Type} (m : BucketMap α) (k : QKey) (b : Bucket α)
    (h : mapFind m k = none) : mapErase (m ++ [(k, b)]) k = m := by
  induction m with
  | nil => simp [mapErase]
  | cons kb rest ih =>
    obtain ⟨k1, b1⟩ := kb
    by_cases hk : k1 = k
    · simp [mapFind, hk] at h
    · simp only [mapFind, if_neg hk] at h
      simp [List.cons_append, mapErase, hk, ih h]

/-- Claim C4 (counterexample): the round trip is not empty for every
index: starting from an index that already stores the point, add(p)
followed by remove(p) leaves one entry behind, so query(p) is not
empty. -/
theorem add_remove_query_not_always_empty :
    query 16
        (remove 0 16 (add 16 (add 16 ([] : BucketMap ℕ) none [(0:ℚ)]) none [(0:ℚ)])
          [(0:ℚ)]).2 [(0:ℚ)] ≠ [] := by
  decide

/-- Claim C4 (amended): for every index holding no bucket at p's key
(in particular whenever query(p) is empty on a reachable index, since
no empty bucket persists), add(p) then remove(p) in the no-payload case
restores emptiness: the add makes query(p) return exactly the new
entry, the remove reports true, and afterwards query(p) is empty
again. -/
theorem add_remove_roundtrip_empty_bucket {α : Type} (eps : ℚ) (heps : 0 ≤ eps) (P : ℕ)
    (m : BucketMap α) (p : Point)
    (h : mapFind m (quantize_coordinates P p) = none) :
    query P (add P m none p) p = [(p, none)] ∧
    (remove eps P (add P m none p) p).1 = true ∧
    query P (remove eps P (add P m none p) p).2 p = [] := by
  have hadd : add P m none p = m ++ [(quantize_coordinates P p, [(p, none)])] :=
    mapAppend_of_find_none m _ _ h
  have hfind : mapFind (add P m none p) (quantize_coordinates P p) = some [(p, none)] := by
    rw [hadd]
    exact mapFind_append_single_self m _ _ h
  have hmatch : coordinates_match eps p p = true := coordinates_match_refl eps heps p
  have hrfw :
      removeFirstWith (fun e => coordinates_match eps e.1 p)
        ([(p, none)] : Bucket α) = (true, []) := by
    simp [removeFirstWith, hmatch]
  refine ⟨?_, ?_, ?_⟩
  · simp [query, hfind]
  · simp [remove, hfind, hrfw]
  · have hrem : (remove eps P (add P m none p) p).2 =
        mapErase (add P m none p) (quantize_coordinates P p) := by
      simp [remove, hfind, hrfw]
    rw [hrem, hadd, mapErase_append_single m _ _ h]
    simp [query, h]

/-- Witness for the amended C4 theorem at p = (3) on the empty index. -/
theorem add_remove_roundtrip_witness :
    (0:ℚ) ≤ 0 ∧ mapFind ([] : BucketMap ℕ) (quantize_coordinates 16 [(3:ℚ)]) = none ∧
    query 16 (add 16 ([] : BucketMap ℕ) none [(3:ℚ)]) [(3:ℚ)] = [([(3:ℚ)], none)] ∧
    (remove 0 16 (add 16 ([] : BucketMap ℕ) none [(3:ℚ)]) [(3:ℚ)]).1 = true ∧
    query 16 (remove 0 16 (add 16 ([] : BucketMap ℕ) none [(3:ℚ)]) [(3:ℚ)]).2 [(3:ℚ)] = [] := by
  have h := add_remove_roundtrip_empty_bucket (α := ℕ) 0 le_rfl 16 [] [(3:ℚ)] rfl
  exact ⟨le_rfl, rfl, h.1, h.2.1, h.2.2⟩

/-! ### Claim C7 -/

/-- Claim C7: query_within_distance returns a payload reference for
exactly those stored entries, in buckets whose keys the distance
enumerator yields, whose exact squared Euclidean distance to the center
satisfies distance_squared <= radius^2, with no epsilon tolerance; in
the concrete instance (precision 16, center (0,0), radius 5) the entry
at (3,4) -- distance exactly 5 -- is accepted while the entry at
(3, 4.1), strictly farther, is rejected. -/
theorem query_within_distance_characterization :
    (∀ (α : Type) (P : ℕ) (m : BucketMap α) (center : Point) (radius : ℚ) (o : Option α),
      o ∈ query_within_distance P m center radius ↔
        ∃ k ∈ generate_all_quantized_coordinates_within_distance P center radius,
          ∃ b, mapFind m k = some b ∧
            ∃ e ∈ b, e.2 = o ∧
              calculate_distance_squared e.1 center ≤ qmul radius radius) ∧
    query_within_distance 16
        (add 16 (add 16 ([] : BucketMap ℕ) (some 1) [3, 4]) (some 2) [3, mkRat 41 10])
        [0, 0] 5 = [some 1] := by
  constructor
  · intro α P m center radius o
    simp only [query_within_distance, List.mem_flatMap]
    refine exists_congr fun k => and_congr_right fun _ => ?_
    cases hf : mapFind m k with
    | none => simp
    | some b =>
      simp only [List.mem_filterMap, Option.some.injEq]
      constructor
      · rintro ⟨e, he, hcond⟩
        by_cases hd : calculate_distance_squared e.1 center ≤ qmul radius radius
        · rw [if_pos hd] at hcond
          exact ⟨b, rfl, e, he, Option.some.inj hcond, hd⟩
        · rw [if_neg hd] at hcond
          cases hcond
      · rintro ⟨b2, hb2, e, he, heo, hd⟩
        obtain rfl : b = b2 := hb2
        exact ⟨e, he, by rw [if_pos hd, heo]⟩
  · decide

/-! ### Claim C5 -/

/-- The shift loop computes the exponent of a power of two. -/
theorem shiftLoop_two_pow (s : ℕ) : ∀ fuel, 2 ^ s ≤ fuel → shiftLoop fuel (2 ^ s) = s := by
  induction s with
  | zero =>
    intro fuel h
    cases fuel with
    | zero => simp at h
    | succ f => simp [shiftLoop]
  | succ s ih =>
    intro fuel h
    have hss : (2:ℕ) ^ s + 1 ≤ 2 ^ (s + 1) := by
      have h1 : (1:ℕ) ≤ 2 ^ s := Nat.one_le_two_pow
      rw [pow_succ]
      omega
    cases fuel with
    | zero =>
      have := Nat.one_le_two_pow (n := s + 1)
      omega
    | succ f =>
      have hdiv : (2:ℕ) ^ (s + 1) / 2 = 2 ^ s := by
        rw [pow_succ]
        exact Nat.mul_div_cancel _ (by norm_num)
      simp only [shiftLoop, if_pos (show 1 < 2 ^ (s + 1) by omega)]
      rw [hdiv, ih f (by omega)]

/-- calculate_precision_shift is exact on powers of two. -/
theorem calculate_precision_shift_two_pow (s : ℕ) :
    calculate_precision_shift (2 ^ s) = s :=
  shiftLoop_two_pow s (2 ^ s) le_rfl

/-- The odometer emits one tuple per cell of the index cuboid. -/
theorem odometer_length (steps : List ℕ) :
    (odometer steps).length = (steps.map fun s => max s 1).prod := by
  induction steps with
  | nil => rfl
  | cons s rest ih =>
    have hconst :
        (List.length ∘ fun tl : List ℕ => (List.range (max s 1)).map fun i => i :: tl)
          = fun _ => max s 1 := by
      funext tl
      simp
    rw [odometer, List.length_flatMap, hconst, List.map_const', List.sum_replicate,
      smul_eq_mul, ih, List.map_cons, List.prod_cons]
    ring

/-- Closed form of the per-dimension step count when the quantized
difference is nonnegative and inside the signed 64-bit range. -/
theorem stepCount_eq (s : ℕ) (qmax qmin : ℤ) (h0 : qmin ≤ qmax)
    (hlt : qmax - qmin < 2 ^ 63) :
    stepCount s qmax qmin = ((qmax - qmin) / (2:ℤ) ^ s + 1).toNat ∧
    1 ≤ stepCount s qmax qmin := by
  unfold stepCount
  have hw : wrap64 (qmax - qmin) = qmax - qmin := wrap64_eq_self _ (by omega) hlt
  rw [hw]
  have hc : ((2 ^ s : ℕ) : ℤ) = (2:ℤ) ^ s := by norm_cast
  rw [hc]
  have hcpos : (0:ℤ) < (2:ℤ) ^ s := by positivity
  have hdivnn : 0 ≤ (qmax - qmin) / (2:ℤ) ^ s := Int.ediv_nonneg (by omega) (by positivity)
  have hdivle : (qmax - qmin) / (2:ℤ) ^ s ≤ qmax - qmin := Int.ediv_le_self _ (by omega)
  unfold toUInt64Z
  have h64 : ((2 ^ 64 : ℕ) : ℤ) = (2:ℤ) ^ 64 := by norm_cast
  have hmod : ((qmax - qmin) / (2:ℤ) ^ s + 1) % ((2 ^ 64 : ℕ) : ℤ)
      = (qmax - qmin) / (2:ℤ) ^ s + 1 := by
    rw [h64]
    apply Int.emod_eq_of_lt (by omega)
    have e63 : ((2:ℤ) ^ 63) = (9223372036854775808 : ℤ) := by norm_num
    have e64 : ((2:ℤ) ^ 64) = (18446744073709551616 : ℤ) := by norm_num
    rw [e64]
    rw [e63] at hlt
    omega
  rw [hmod]
  omega

/-- Per-dimension agreement between the computed step count and the
claim's formula ((quantize(max) - quantize(min)) >> log2 P) + 1, under
in-range bounds. -/
theorem stepCount_formula_of_bounds (s : ℕ) (hs : s ≤ 60) (mx mn : ℚ)
    (h1 : mn ≤ mx) (h2 : -(2 ^ 61) ≤ truncQ mn) (h3 : truncQ mx < 2 ^ 61) :
    max (stepCount s (quantize_value (2 ^ s) mx) (quantize_value (2 ^ s) mn)) 1 =
      ((quantize_value (2 ^ s) mx - quantize_value (2 ^ s) mn) / (2:ℤ) ^ s + 1).toNat := by
  have hmono := truncQ_mono h1
  have hs63 : s ≤ 63 := by omega
  have e61 : ((2:ℤ) ^ 61) = (2305843009213693952 : ℤ) := by norm_num
  have e63 : ((2:ℤ) ^ 63) = (9223372036854775808 : ℤ) := by norm_num
  have hmn1 : -(2 ^ 63) ≤ truncQ mn := by omega
  have hmn2 : truncQ mn < 2 ^ 63 := by omega
  have hmx1 : -(2 ^ 63) ≤ truncQ mx := by omega
  have hmx2 : truncQ mx < 2 ^ 63 := by omega
  have hbmn := quantize_value_bounds s hs63 mn hmn1 hmn2
  have hbmx := quantize_value_bounds s hs63 mx hmx1 hmx2
  have hq := quantize_mono_of_bounds s hs63 mn mx hmn1 hmx2 h1
  have hcle : (2:ℤ) ^ s ≤ (2:ℤ) ^ 60 := pow_le_pow_right₀ (by norm_num) hs
  have e60 : ((2:ℤ) ^ 60) = (1152921504606846976 : ℤ) := by norm_num
  have hlt : quantize_value (2 ^ s) mx - quantize_value (2 ^ s) mn < 2 ^ 63 := by
    omega
  obtain ⟨heq, hge⟩ := stepCount_eq s _ _ hq hlt
  omega

/-- The step list of the range enumerator (pointwise through max 1)
equals the claim's formula list, under in-range bounds. -/
theorem steps_eq_formula (s : ℕ) (hs : s ≤ 60) :
    ∀ (maxC minC : Point),
      (∀ p ∈ List.zip maxC minC,
        p.2 ≤ p.1 ∧ -(2 ^ 61) ≤ truncQ p.2 ∧ truncQ p.1 < 2 ^ 61) →
      (List.zipWith (fun mx mn =>
          stepCount s (quantize_value (2 ^ s) mx) (quantize_value (2 ^ s) mn))
          maxC minC).map (fun t => max t 1) =
        List.zipWith (fun mx mn =>
          ((quantize_value (2 ^ s) mx - quantize_value (2 ^ s) mn) / (2:ℤ) ^ s + 1).toNat)
          maxC minC := by
  intro maxC
  induction maxC with
  | nil => intro minC hb; cases minC <;> rfl
  | cons mx maxrest ih =>
    intro minC hb
    cases minC with
    | nil => rfl
    | cons mn minrest =>
      have hp := hb (mx, mn) (by simp [List.zip_cons_cons])
      have htail := ih minrest (fun p hp2 => hb p (by
        rw [List.zip_cons_cons]
        exact List.mem_cons_of_mem _ hp2))
      simp only [List.zipWith_cons_cons, List.map_cons]
      rw [htail, stepCount_formula_of_bounds s hs mx mn hp.1 hp.2.1 hp.2.2]

/-- Claim C5 (amended): for points with min <= max per dimension whose
truncations lie well inside the signed 64-bit range, the range
enumerator emits exactly one bucket key per index tuple: the number of
keys equals the product over all dimensions of
((quantize(max_i) - quantize(min_i)) >> log2(precision)) + 1.  (The
keys are the quantizations of min + step * precision offsets; by the
counterexample they need not coincide with the grid cells touched by
the box when a minimum coordinate is negative and fractional.) -/
theorem range_enumerator_key_count (s : ℕ) (hs : s ≤ 60) (minC maxC : Point)
    (hb : ∀ p ∈ List.zip maxC minC,
      p.2 ≤ p.1 ∧ -(2 ^ 61) ≤ truncQ p.2 ∧ truncQ p.1 < 2 ^ 61) :
    (generate_all_quantized_coordinates_within_range (2 ^ s) minC maxC).length =
      (List.zipWith (fun mx mn =>
        ((quantize_value (2 ^ s) mx - quantize_value (2 ^ s) mn) / (2:ℤ) ^ s + 1).toNat)
        maxC minC).prod := by
  unfold generate_all_quantized_coordinates_within_range
  rw [List.length_map, odometer_length, calculate_precision_shift_two_pow]
  rw [steps_eq_formula s hs maxC minC hb]

/-- Witness for the amended C5 theorem: precision 4 = 2^2 in two
dimensions with min = (0,0) and max = (15,15) satisfies the bounds, and
the enumerator returns exactly 16 pairwise distinct keys (4 steps per
axis). -/
theorem range_enumerator_key_count_witness :
    (2 ≤ 60 ∧ ∀ p ∈ List.zip [(15:ℚ), 15] [(0:ℚ), 0],
      p.2 ≤ p.1 ∧ -(2 ^ 61) ≤ truncQ p.2 ∧ truncQ p.1 < 2 ^ 61) ∧
    (generate_all_quantized_coordinates_within_range (2 ^ 2) [(0:ℚ), 0] [(15:ℚ), 15]).length =
      (List.zipWith (fun mx mn =>
        ((quantize_value (2 ^ 2) mx - quantize_value (2 ^ 2) mn) / (2:ℤ) ^ 2 + 1).toNat)
        [(15:ℚ), 15] [(0:ℚ), 0]).prod ∧
    (generate_all_quantized_coordinates_within_range 4 [(0:ℚ), 0] [(15:ℚ), 15]).length = 16 ∧
    (generate_all_quantized_coordinates_within_range 4 [(0:ℚ), 0] [(15:ℚ), 15]).Nodup := by
  refine ⟨⟨by norm_num, by decide⟩, ?_, by decide, by decide⟩
  exact range_enumerator_key_count 2 (by norm_num) [(0:ℚ), 0] [(15:ℚ), 15] (by decide)

/-- Claim C5 (counterexample): with precision 4 in one dimension,
min = -4.5 and max = 4.5, the enumerator emits the keys
[-4], [0], [0]: the emitted keys are not pairwise distinct and the grid
cell [4, 8) touched by the box (it contains the point 4.5, whose bucket
key is [4]) is never emitted, so the enumerator does not emit one key
per grid cell touched by the box. -/
theorem range_enumerator_misses_touched_cell :
    generate_all_quantized_coordinates_within_range 4 [mkRat (-9) 2] [mkRat 9 2] =
      [[-4], [0], [0]] ∧
    quantize_coordinates 4 [mkRat 9 2] = [4] ∧
    quantize_coordinates 4 [mkRat 9 2] ∉
      generate_all_quantized_coordinates_within_range 4 [mkRat (-9) 2] [mkRat 9 2] ∧
    ¬ (generate_all_quantized_coordinates_within_range 4 [mkRat (-9) 2] [mkRat 9 2]).Nodup := by
  decide

/-! ### Claim C1 -/

/-- Claim C1 (counterexample): query_bounding_box((0,0),(30,40)) does
not return payload B: the exact inclusive filter rejects B's stored
coordinate 30.2 because 30.2 > 30. -/
theorem query_bounding_box_readme_example_excludes_B :
    some 2 ∉ query_bounding_box 16 readmeExampleMap [0, 0] [30, 40] ∧
    ¬ (mkRat 302 10 ≤ 30) := by
  decide

/-- Claim C1 (amended): with precision 16, payloads A and B quantize to
the same bucket (16,16) and C to (48,32); query_bounding_box with
bounds (0,0)-(30,40) returns exactly the payload set {A}: C is excluded
by bucket enumeration and B by the exact elementwise inclusive bounds
filter, since its coordinate 30.2 exceeds the upper bound 30. -/
theorem query_bounding_box_readme_example :
    quantize_coordinates 16 [mkRat 244 10, 20] = [16, 16] ∧
    quantize_coordinates 16 [mkRat 302 10, mkRat 181 10] = [16, 16] ∧
    quantize_coordinates 16 [50, 40] = [48, 32] ∧
    query_bounding_box 16 readmeExampleMap [0, 0] [30, 40] = [some 1] ∧
    some 3 ∉ query_bounding_box 16 readmeExampleMap [0, 0] [30, 40] := by
  decide

/-! ### Claim C6 -/

/-- Appending an entry preserves the no-empty-buckets invariant. -/
theorem noEmpty_mapAppend {α : Type} (k : QKey) (e : Entry α) :
    ∀ m : BucketMap α, NoEmptyBuckets m → NoEmptyBuckets (mapAppend m k e) := by
  intro m
  induction m with
  | nil =>
    intro _ kb hkb
    simp only [mapAppend, List.mem_singleton] at hkb
    subst hkb
    simp
  | cons kb0 rest ih =>
    obtain ⟨k0, b0⟩ := kb0
    intro h kb hkb
    by_cases hk : k0 = k
    · simp only [mapAppend, if_pos hk, List.mem_cons] at hkb
      rcases hkb with h1 | h2
      · subst h1
        simp
      · exact h kb (List.mem_cons_of_mem _ h2)
    · simp only [mapAppend, if_neg hk, List.mem_cons] at hkb
      rcases hkb with h1 | h2
      · subst h1
        exact h _ (List.mem_cons_self _ _)
      · exact ih (fun kb2 hkb2 => h kb2 (List.mem_cons_of_mem _ hkb2)) kb h2

/-- Erasing a key only removes bindings. -/
theorem mem_mapErase {α : Type} (k : QKey) :
    ∀ (m : BucketMap α) (kb : QKey × Bucket α), kb ∈ mapErase m k → kb ∈ m := by
  intro m
  induction m with
  | nil => intro kb hkb; cases hkb
  | cons kb0 rest ih =>
    obtain ⟨k0, b0⟩ := kb0
    intro kb hkb
    by_cases hk : k0 = k
    · simp only [mapErase, if_pos hk] at hkb
      exact List.mem_cons_of_mem _ hkb
    · simp only [mapErase, if_neg hk, List.mem_cons] at hkb
      rcases hkb with h1 | h2
      · exact h1 ▸ List.mem_cons_self _ _
      · exact List.mem_cons_of_mem _ (ih kb h2)

/-- A binding of the updated map is an old binding or carries the new
bucket. -/
theorem mem_mapUpdate {α : Type} (k : QKey) (b : Bucket α) :
    ∀ (m : BucketMap α) (kb : QKey × Bucket α), kb ∈ mapUpdate m k b → kb ∈ m ∨ kb.2 = b := by
  intro m
  induction m with
  | nil => intro kb hkb; cases hkb
  | cons kb0 rest ih =>
    obtain ⟨k0, b0⟩ := kb0
    intro kb hkb
    by_cases hk : k0 = k
    · simp only [mapUpdate, if_pos hk, List.mem_cons] at hkb
      rcases hkb with h1 | h2
      · right
        rw [h1]
      · exact Or.inl (List.mem_cons_of_mem _ h2)
    · simp only [mapUpdate, if_neg hk, List.mem_cons] at hkb
      rcases hkb with h1 | h2
      · exact Or.inl (h1 ▸ List.mem_cons_self _ _)
      · rcases ih kb h2 with h3 | h3
        · exact Or.inl (List.mem_cons_of_mem _ h3)
        · exact Or.inr h3

/-- The erase-or-update step after an in-bucket removal preserves the
invariant. -/
theorem noEmpty_erase_or_update {α : Type} {m : BucketMap α} (h : NoEmptyBuckets m)
    (k : QKey) (b : Bucket α) :
    NoEmptyBuckets (if b.isEmpty then mapErase m k else mapUpdate m k b) := by
  by_cases hb : b.isEmpty
  · rw [if_pos hb]
    intro kb hkb
    exact h kb (mem_mapErase k m kb hkb)
  · rw [if_neg hb]
    intro kb hkb
    rcases mem_mapUpdate k b m kb hkb with h1 | h1
    · exact h kb h1
    · rw [h1]
      intro hcon
      rw [hcon] at hb
      exact hb rfl

/-- remove preserves the invariant. -/
theorem noEmpty_remove {α : Type} (eps : ℚ) (P : ℕ) (coords : Point) {m : BucketMap α}
    (h : NoEmptyBuckets m) : NoEmptyBuckets (remove eps P m coords).2 := by
  cases hf : mapFind m (quantize_coordinates P coords) with
  | none => simpa [remove, hf] using h
  | some bucket =>
    by_cases hr : (removeFirstWith (fun e => coordinates_match eps e.1 coords) bucket).1 = true
    · simpa [remove, hf, hr] using noEmpty_erase_or_update h _ _
    · simp only [Bool.not_eq_true] at hr
      simpa [remove, hf, hr] using h

/-- remove_object preserves the invariant. -/
theorem noEmpty_remove_object {α : Type} [DecidableEq α] (P : ℕ) (object : α) (coords : Point)
    {m : BucketMap α} (h : NoEmptyBuckets m) :
    NoEmptyBuckets (remove_object P m object coords).2 := by
  cases hf : mapFind m (quantize_coordinates P coords) with
  | none => simpa [remove_object, hf] using h
  | some bucket =>
    by_cases hr : (removeFirstWith (fun e => decide (e.2 = some object)) bucket).1 = true
    · simpa [remove_object, hf, hr] using noEmpty_erase_or_update h _ _
    · simp only [Bool.not_eq_true] at hr
      simpa [remove_object, hf, hr] using h

/-- The loop of the radius remove preserves the invariant. -/
theorem noEmpty_remove_radius_go {α : Type} [DecidableEq α] (object : α) :
    ∀ (ks : List QKey) (m : BucketMap α) (acc : Bool), NoEmptyBuckets m →
      NoEmptyBuckets (remove_radius_go object ks m acc).2 := by
  intro ks
  induction ks with
  | nil => intro m acc h; exact h
  | cons k rest ih =>
    intro m acc h
    cases hf : mapFind m k with
    | none => simpa [remove_radius_go, hf] using ih m acc h
    | some bucket =>
      simpa [remove_radius_go, hf] using
        ih _ _ (noEmpty_erase_or_update h k
          (removeFirstWith (fun e => decide (e.2 = some object)) bucket).2)

/-- The fold of the radius add preserves the invariant. -/
theorem noEmpty_foldl_mapAppend {α : Type} (coords : Point) (object : α) :
    ∀ (ks : List QKey) (m : BucketMap α), NoEmptyBuckets m →
      NoEmptyBuckets (ks.foldl (fun acc k => mapAppend acc k (coords, some object)) m) := by
  intro ks
  induction ks with
  | nil => intro m h; exact h
  | cons k rest ih =>
    intro m h
    exact ih _ (noEmpty_mapAppend k _ m h)

/-- Claim C6: no empty bucket persists: in every state reachable from
the empty index by any sequence of add, add-with-radius, remove,
remove-with-radius, move and clear operations, every bucket present in
the map holds at least one entry. -/
theorem no_empty_buckets_reachable {α : Type} [DecidableEq α] (eps : ℚ) (P : ℕ)
    (m : BucketMap α) (h : Reachable eps P m) (k : QKey) (b : Bucket α)
    (hmem : (k, b) ∈ m) : b ≠ [] := by
  suffices hinv : NoEmptyBuckets m by exact hinv (k, b) hmem
  clear hmem
  induction h with
  | empty => intro kb hkb; cases hkb
  | add_step m2 object coords _ ih => exact noEmpty_mapAppend _ _ m2 ih
  | add_radius_step m2 object coords radius _ ih =>
    exact noEmpty_foldl_mapAppend coords object _ m2 ih
  | remove_step m2 coords _ ih => exact noEmpty_remove eps P coords ih
  | remove_object_step m2 object coords _ ih => exact noEmpty_remove_object P object coords ih
  | remove_radius_step m2 object coords radius _ ih =>
    exact noEmpty_remove_radius_go object _ m2 false ih
  | move_step m2 old_coordinates new_coordinates _ ih =>
    unfold move
    by_cases hb : buckets_match P old_coordinates new_coordinates = true
    · simpa [hb] using ih
    · simp only [Bool.not_eq_true] at hb
      by_cases hr : (remove eps P m2 old_coordinates).1 = true
      · simpa [hb, hr] using noEmpty_mapAppend _ _ _ (noEmpty_remove eps P old_coordinates ih)
      · simp only [Bool.not_eq_true] at hr
        simpa [hb, hr] using noEmpty_remove eps P old_coordinates ih
  | move_object_step m2 object old_coordinates new_coordinates _ ih =>
    unfold move_object
    by_cases hb : buckets_match P old_coordinates new_coordinates = true
    · simpa [hb] using ih
    · simp only [Bool.not_eq_true] at hb
      by_cases hr : (remove_object P m2 object old_coordinates).1 = true
      · simpa [hb, hr] using
          noEmpty_mapAppend _ _ _ (noEmpty_remove_object P object old_coordinates ih)
      · simp only [Bool.not_eq_true] at hr
        simpa [hb, hr] using noEmpty_remove_object P object old_coordinates ih
  | move_radius_step m2 object radius old_coordinates new_coordinates _ ih =>
    unfold move_radius
    by_cases hc : coordinates_match eps old_coordinates new_coordinates = true
    · simpa [hc] using ih
    · simp only [Bool.not_eq_true] at hc
      simp only [hc, Bool.false_eq_true, if_false, add_radius]
      exact noEmpty_foldl_mapAppend new_coordinates object _ _
        (noEmpty_remove_radius_go object _ m2 false ih)
  | clear_step m2 _ _ => intro kb hkb; cases hkb

/-- Witness for C6: the one-step reachable state add(empty, (0)) holds
the single bucket [0] with one entry, which is indeed nonempty. -/
theorem no_empty_buckets_witness :
    Reachable (α := ℕ) 0 16 (add 16 [] none [(0:ℚ)]) ∧
    ([(0:ℤ)], [([(0:ℚ)], (none : Option ℕ))]) ∈ add 16 ([] : BucketMap ℕ) none [(0:ℚ)] ∧
    [([(0:ℚ)], (none : Option ℕ))] ≠ ([] : Bucket ℕ) := by
  refine ⟨Reachable.add_step [] none [(0:ℚ)] Reachable.empty, by decide, ?_⟩
  exact no_empty_buckets_reachable 0 16 _
    (Reachable.add_step [] none [(0:ℚ)] Reachable.empty) [(0:ℤ)] _ (by decide)

end lochash
